import Mathlib

/-!
Verification of `src/site/_collections/algolia.js`: a build-time transform
that flattens site content (posts, authors, newsletters, tags) into a list
of search-index records.  JS strings are embedded as `List Char`; JS
`undefined` as `Option.none`; thrown `TypeError`s as `Except.error`.
-/

namespace Algolia

/-- The newline character searched for by `limitText`. -/
def nlChar : Char := '\n'

/-- Embedding of JS `str.lastIndexOf(c, fromIdx)` restricted to a single
character: the largest index `i ≤ fromIdx` with `s[i] = c`, `none` for -1. -/
def lastIndexOfFrom (s : List Char) (c : Char) : Nat → Option Nat
  | 0 => if s[0]? = some c then some 0 else none
  | n + 1 => if s[n + 1]? = some c then some (n + 1) else lastIndexOfFrom s c n

/-- Embedding of `limitText(fulltext, limit = 7500)` from algolia.js:
return the text unchanged when it fits, otherwise slice at the nearest
newline at or before `limit`, falling back to a hard cut at `limit`. -/
def limitText (fulltext : List Char) (limit : Nat := 7500) : List Char :=
  if fulltext.length ≤ limit then
    fulltext
  else
    let newlineIndex := (lastIndexOfFrom fulltext nlChar limit).getD limit
    fulltext.take newlineIndex

theorem lastIndexOfFrom_eq_some (s : List Char) (c : Char) :
    ∀ (n i : Nat), (lastIndexOfFrom s c n = some i ↔
      (i ≤ n ∧ s[i]? = some c ∧ ∀ j, i < j → j ≤ n → s[j]? ≠ some c)) := by
  intro n
  induction n with
  | zero =>
    intro i
    by_cases hc : s[0]? = some c
    · simp only [lastIndexOfFrom, if_pos hc]
      constructor
      · intro h
        injection h with hi
        subst hi
        exact ⟨Nat.le_refl 0, hc, fun j hj hj0 => absurd hj (by omega)⟩
      · rintro ⟨hle, hget, -⟩
        have hi : i = 0 := Nat.le_zero.mp hle
        subst hi
        rfl
    · simp only [lastIndexOfFrom, if_neg hc]
      constructor
      · intro h
        exact Option.noConfusion h
      · rintro ⟨hle, hget, -⟩
        have hi : i = 0 := Nat.le_zero.mp hle
        subst hi
        exact absurd hget hc
  | succ n ih =>
    intro i
    by_cases hc : s[n + 1]? = some c
    · simp only [lastIndexOfFrom, if_pos hc]
      constructor
      · intro h
        injection h with hi
        subst hi
        exact ⟨Nat.le_refl _, hc, fun j hj hj1 => absurd hj (by omega)⟩
      · rintro ⟨hle, hget, hlast⟩
        rcases Nat.lt_or_ge i (n + 1) with hlt | hge
        · exact absurd hc (hlast (n + 1) hlt (Nat.le_refl _))
        · have hi : i = n + 1 := Nat.le_antisymm hle hge
          subst hi
          rfl
    · simp only [lastIndexOfFrom, if_neg hc]
      rw [ih i]
      constructor
      · rintro ⟨hle, hget, hlast⟩
        refine ⟨Nat.le_succ_of_le hle, hget, ?_⟩
        intro j hj hj1
        rcases Nat.lt_or_ge j (n + 1) with hlt | hge
        · exact hlast j hj (Nat.lt_succ_iff.mp hlt)
        · have hj' : j = n + 1 := Nat.le_antisymm hj1 hge
          subst hj'
          exact hc
      · rintro ⟨hle, hget, hlast⟩
        have hne : i ≠ n + 1 := fun hi => hc (hi ▸ hget)
        exact ⟨by omega, hget, fun j hj hj1 => hlast j hj (Nat.le_succ_of_le hj1)⟩

theorem lastIndexOfFrom_eq_none (s : List Char) (c : Char) :
    ∀ (n : Nat), (lastIndexOfFrom s c n = none ↔ ∀ j, j ≤ n → s[j]? ≠ some c) := by
  intro n
  induction n with
  | zero =>
    by_cases hc : s[0]? = some c
    · simp only [lastIndexOfFrom, if_pos hc]
      constructor
      · intro h
        exact Option.noConfusion h
      · intro h
        exact absurd hc (h 0 (Nat.le_refl 0))
    · simp only [lastIndexOfFrom, if_neg hc]
      constructor
      · intro _ j hj
        have hj0 : j = 0 := Nat.le_zero.mp hj
        subst hj0
        exact hc
      · intro _
        trivial
  | succ n ih =>
    by_cases hc : s[n + 1]? = some c
    · simp only [lastIndexOfFrom, if_pos hc]
      constructor
      · intro h
        exact Option.noConfusion h
      · intro h
        exact absurd hc (h (n + 1) (Nat.le_refl _))
    · simp only [lastIndexOfFrom, if_neg hc]
      rw [ih]
      constructor
      · intro h j hj
        rcases Nat.lt_or_ge j (n + 1) with hlt | hge
        · exact h j (Nat.lt_succ_iff.mp hlt)
        · have hj' : j = n + 1 := Nat.le_antisymm hj hge
          subst hj'
          exact hc
      · intro h j hj
        exact h j (Nat.le_succ_of_le hj)

theorem lastIndexOfFrom_le (s : List Char) (c : Char) (n i : Nat)
    (h : lastIndexOfFrom s c n = some i) : i ≤ n :=
  ((lastIndexOfFrom_eq_some s c n i).mp h).1

/-- On the truncating branch the result is `take` of an index at most `limit`. -/
theorem limitText_of_lt (t : List Char) (L : Nat) (h : L < t.length) :
    limitText t L = t.take ((lastIndexOfFrom t nlChar L).getD L) := by
  simp [limitText, Nat.not_le.mpr h]

theorem limitText_length_le_limit (t : List Char) (L : Nat) (h : L < t.length) :
    (limitText t L).length ≤ L := by
  rw [limitText_of_lt t L h]
  rcases hidx : lastIndexOfFrom t nlChar L with _ | i
  · simp [List.length_take_le]
  · have hi : i ≤ L := lastIndexOfFrom_le t nlChar L i hidx
    simp only [Option.getD_some]
    exact Nat.le_trans (List.length_take_le i t) hi

theorem limitText_of_le (t : List Char) (L : Nat) (h : t.length ≤ L) : limitText t L = t := by
  simp [limitText, h]

/-- C1: `limitText(text, maxLength)` returns `text` unchanged when it fits;
otherwise it returns the prefix ending just before the last line break at or
before position `maxLength`, or exactly the first `maxLength` characters when
no line break exists in that region; in all cases the result is a prefix of
the input of length at most the input's length. -/
theorem limitText_spec (t : List Char) (L : Nat) :
    (t.length ≤ L → limitText t L = t) ∧
    (L < t.length →
      ((∀ i, i ≤ L → t[i]? = some nlChar →
          (∀ j, i < j → j ≤ L → t[j]? ≠ some nlChar) → limitText t L = t.take i) ∧
        ((∀ j, j ≤ L → t[j]? ≠ some nlChar) →
          limitText t L = t.take L ∧ (limitText t L).length = L))) ∧
    ((∃ n, limitText t L = t.take n) ∧ (limitText t L).length ≤ t.length) := by
  refine ⟨fun h => limitText_of_le t L h, fun hlt => ⟨?_, ?_⟩, ?_⟩
  · intro i hi hget hlast
    have hidx : lastIndexOfFrom t nlChar L = some i :=
      (lastIndexOfFrom_eq_some t nlChar L i).mpr ⟨hi, hget, hlast⟩
    rw [limitText_of_lt t L hlt, hidx, Option.getD_some]
  · intro hnone
    have hidx : lastIndexOfFrom t nlChar L = none :=
      (lastIndexOfFrom_eq_none t nlChar L).mpr hnone
    have heq : limitText t L = t.take L := by
      rw [limitText_of_lt t L hlt, hidx, Option.getD_none]
    exact ⟨heq, by rw [heq]; exact List.length_take_of_le (Nat.le_of_lt hlt)⟩
  · by_cases h : t.length ≤ L
    · refine ⟨⟨t.length, ?_⟩, ?_⟩
      · rw [limitText_of_le t L h, List.take_length]
      · rw [limitText_of_le t L h]
    · have hlt : L < t.length := Nat.not_le.mp h
      refine ⟨⟨(lastIndexOfFrom t nlChar L).getD L, limitText_of_lt t L hlt⟩, ?_⟩
      rw [limitText_of_lt t L hlt]
      exact List.length_take_le' _ _

/-- Closed instantiations of `limitText_spec`, one per branch: a short text is
returned unchanged; a long text is cut just before its last newline in range;
a long newline-free text is hard-cut to exactly the bound. -/
theorem limitText_spec_witness :
    limitText ['a', 'b'] 7500 = ['a', 'b'] ∧
    limitText ['a', '\n', 'b', 'c'] 2 = List.take 1 ['a', '\n', 'b', 'c'] ∧
    (limitText ['a', 'b', 'c', 'd'] 2).length = 2 :=
  ⟨(limitText_spec ['a', 'b'] 7500).1 (by decide),
    ((limitText_spec ['a', '\n', 'b', 'c'] 2).2.1 (by decide)).1 1 (by decide) (by decide)
      (by intro j hj hj2; have hj' : j = 2 := (by omega); rw [hj']; decide),
    (((limitText_spec ['a', 'b', 'c', 'd'] 2).2.1 (by decide)).2
      (by intro j hj; interval_cases j <;> decide)).2⟩

/-- C2 counterexample: with `t = "a\n\nbbb"` and `L = 2`, the text is longer
than the bound and has a line break within its first three characters, yet
the truncated result `"a\n"` ends in a newline character — the claim that the
result never has a trailing newline is false. -/
theorem limitText_trailing_newline_cex :
    2 < (['a', '\n', '\n', 'b', 'b', 'b'] : List Char).length ∧
    (['a', '\n', '\n', 'b', 'b', 'b'] : List Char)[1]? = some nlChar ∧ 1 ≤ 2 ∧
    (limitText ['a', '\n', '\n', 'b', 'b', 'b'] 2).getLast? = some nlChar := by
  decide

/-- C2 amended: when the text is longer than the bound and a line break
exists at or before position `L`, the result is exactly the prefix ending
just before the LAST such break (the break excluded); the result can still
end in a newline when another newline immediately precedes that break. -/
theorem limitText_ends_at_last_break (t : List Char) (L : Nat)
    (h1 : L < t.length) (j : Nat) (hj : j ≤ L) (hget : t[j]? = some nlChar) :
    ∃ i, i ≤ L ∧ t[i]? = some nlChar ∧
      (∀ k, i < k → k ≤ L → t[k]? ≠ some nlChar) ∧ limitText t L = t.take i := by
  rcases hidx : lastIndexOfFrom t nlChar L with _ | i
  · exact absurd hget (((lastIndexOfFrom_eq_none t nlChar L).mp hidx) j hj)
  · rcases (lastIndexOfFrom_eq_some t nlChar L i).mp hidx with ⟨hle, hgi, hlast⟩
    refine ⟨i, hle, hgi, hlast, ?_⟩
    rw [limitText_of_lt t L h1, hidx, Option.getD_some]

/-- Closed instantiation of `limitText_ends_at_last_break` at `"a\nbc"`, bound 2. -/
theorem limitText_ends_at_last_break_witness :
    ∃ i, i ≤ 2 ∧ (['a', '\n', 'b', 'c'] : List Char)[i]? = some nlChar ∧
      (∀ k, i < k → k ≤ 2 → (['a', '\n', 'b', 'c'] : List Char)[k]? ≠ some nlChar) ∧
      limitText ['a', '\n', 'b', 'c'] 2 = List.take i ['a', '\n', 'b', 'c'] :=
  limitText_ends_at_last_break ['a', '\n', 'b', 'c'] 2 (by decide) 1 (by decide) (by decide)

/-- C6: `limitText` is idempotent for a fixed bound. -/
theorem limitText_idem (t : List Char) (L : Nat) :
    limitText (limitText t L) L = limitText t L := by
  by_cases h : t.length ≤ L
  · rw [limitText_of_le t L h, limitText_of_le t L h]
  · exact limitText_of_le _ L (limitText_length_le_limit t L (Nat.not_le.mp h))

/-- C7: on a text with no newline at all and length above the bound, the
result of `limitText` has length exactly the bound (hard cut). -/
theorem limitText_hard_cut (t : List Char) (L : Nat)
    (hnl : nlChar ∉ t) (hlen : L < t.length) : (limitText t L).length = L := by
  have hnone : lastIndexOfFrom t nlChar L = none := by
    rw [lastIndexOfFrom_eq_none]
    intro j hj hget
    exact hnl (List.getElem?_mem hget)
  rw [limitText_of_lt t L hlen, hnone, Option.getD_none]
  exact List.length_take_of_le (Nat.le_of_lt hlen)

/-- Closed instantiation of `limitText_hard_cut` at `"abc"`, bound 2. -/
theorem limitText_hard_cut_witness : (limitText ['a', 'b', 'c'] 2).length = 2 :=
  limitText_hard_cut ['a', 'b', 'c'] 2 (by decide) (by decide)

/-- Fixed language code: `const lang = 'en'` in algolia.js. -/
def langStr : List Char := ['e', 'n']

/-- The suffix `'#' + lang` appended when building `objectID`s. -/
def hashLang : List Char := ['#', 'e', 'n']

/-- JS coercion of `undefined` to a string under the `+` operator. -/
def undefinedLit : List Char := ['u', 'n', 'd', 'e', 'f', 'i', 'n', 'e', 'd']

/-- JS `a + b` where `a` may be `undefined`: no throw, `undefined` coerces. -/
def jsPlus (a : Option (List Char)) (b : List Char) : List Char :=
  a.getD undefinedLit ++ b

/-- JS truthiness of a possibly-undefined string: `undefined` and `""` are falsy. -/
def jsTruthy : Option (List Char) → Bool
  | none => false
  | some s => !s.isEmpty

/-- The `data.page` front-matter sub-object; its `url` field may be absent. -/
structure Page where
  url : Option (List Char)
deriving DecidableEq

/-- The `data` front-matter bag of a content item, with the fields read by
algolia.js.  `tags = none` models a `tags` value that is not an array
(including `undefined`); `page = none` models an absent `data.page`. -/
structure ItemData where
  title : Option (List Char)
  tags : Option (List (List Char))
  authors : Option (List (List Char))
  description : Option (List Char)
  canonicalUrl : Option (List Char)
  page : Option Page
deriving DecidableEq

/-- The `template.frontMatter` part of an item: only `content` is read. -/
structure Template where
  content : List Char
deriving DecidableEq

/-- One Eleventy content item as consumed by algolia.js. -/
structure Item where
  data : ItemData
  template : Template
deriving DecidableEq

/-- The `data` sub-object of an author/tag collection entry. -/
structure EntryData where
  canonicalUrl : Option (List Char)
deriving DecidableEq

/-- One entry of the (externally built) authors or tags collection, with the
fields read by the mappers in algolia.js. -/
structure FeedEntry where
  title : Option (List Char)
  description : Option (List Char)
  href : Option (List Char)
  data : Option EntryData
deriving DecidableEq

/-- One flattened search-index record, the output shape of all four mappers.
`authors` and `_tags` are `none` for the three non-post record kinds, which
do not carry those fields. -/
structure SearchRecord where
  objectID : List Char
  lang : List Char
  title : Option (List Char)
  url : Option (List Char)
  description : Option (List Char)
  fulltext : List Char
  authors : Option (List (Option (List Char)))
  _tags : Option (List (List Char))
deriving DecidableEq

def typeErrorUrl : String := "TypeError: Cannot read property url of undefined"

def typeErrorTitle : String := "TypeError: Cannot read property title of undefined"

def typeErrorCanonicalUrl : String := "TypeError: Cannot read property canonicalUrl of undefined"

def typeErrorLength : String := "TypeError: Cannot read property length of undefined"

/-- `const validTags = ['post']`. -/
def validTags : List (List Char) := [['p', 'o', 's', 't']]

/-- First filter of `eleventyPosts`: `Array.isArray(item.data.tags)` and
`item.data.tags.some((tag) => validTags.includes(tag))`. -/
def hasPostTag (item : Item) : Bool :=
  match item.data.tags with
  | none => false
  | some ts => ts.any (fun tag => validTags.contains tag)

/-- Second filter of `eleventyPosts`: `item.data.title && item.data.page.url`.
The `&&` short-circuits on a falsy title; reading `url` of an absent
`data.page` throws a TypeError. -/
def titleUrlCheck (item : Item) : Except String Bool :=
  if jsTruthy item.data.title then
    match item.data.page with
    | none => Except.error typeErrorUrl
    | some p => Except.ok (jsTruthy p.url)
  else
    Except.ok false

/-- JS `Array.prototype.filter` with a predicate that can throw: the first
thrown exception aborts the whole traversal. -/
def filterE {α : Type} (p : α → Except String Bool) : List α → Except String (List α)
  | [] => Except.ok []
  | x :: xs =>
    match p x with
    | Except.error e => Except.error e
    | Except.ok b =>
      match filterE p xs with
      | Except.error e => Except.error e
      | Except.ok rest => Except.ok (if b then x :: rest else rest)

/-- JS `Array.prototype.map` with a mapper that can throw: the first thrown
exception aborts the whole traversal. -/
def mapE {α β : Type} (f : α → Except String β) : List α → Except String (List β)
  | [] => Except.ok []
  | x :: xs =>
    match f x with
    | Except.error e => Except.error e
    | Except.ok y =>
      match mapE f xs with
      | Except.error e => Except.error e
      | Except.ok ys => Except.ok (y :: ys)

/-- The `eleventyPosts` selection chain: filter by tag membership, then by
`title && page.url` (which may throw), then by the external `livePosts`
predicate.  The glob accessor is external; `coll` is its output. -/
def eleventyPosts (live : Item → Bool) (coll : List Item) : Except String (List Item) :=
  match filterE titleUrlCheck (coll.filter hasPostTag) with
  | Except.error e => Except.error e
  | Except.ok titled => Except.ok (titled.filter live)

/-- `authorsCollection[author].title`: throws a TypeError when the author key
has no entry in the collection; a present entry's missing title is just
`undefined`. -/
def authorTitleLookup (lookup : List Char → Option FeedEntry) (k : List Char) :
    Except String (Option (List Char)) :=
  match lookup k with
  | none => Except.error typeErrorTitle
  | some entry => Except.ok entry.title

/-- The post mapper of algolia.js: `removeMarkdown` (external) then
`limitText` for `fulltext`, author-title resolution (which throws on a
missing key), and the record literal with
`objectID = data.page.url + '#' + lang`. -/
def mapPost (removeMd : List Char → List Char) (lookup : List Char → Option FeedEntry)
    (item : Item) : Except String SearchRecord :=
  let limited := limitText (removeMd item.template.content)
  match mapE (authorTitleLookup lookup) (item.data.authors.getD []) with
  | Except.error e => Except.error e
  | Except.ok authors =>
    match item.data.page with
    | none => Except.error typeErrorUrl
    | some p =>
      Except.ok {
        objectID := jsPlus p.url hashLang, lang := langStr, title := item.data.title,
        url := item.data.canonicalUrl, description := item.data.description,
        fulltext := limited, authors := some authors, _tags := item.data.tags }

/-- The author and tag mappers (textually identical arrow functions in the
source): `href + '#' + lang`, `data.canonicalUrl` (throws when `data` is
absent), and `limitText(description)` (throws when `description` is absent,
because `limitText` reads `fulltext.length`). -/
def mapFeedEntry (entry : FeedEntry) : Except String SearchRecord :=
  match entry.data with
  | none => Except.error typeErrorCanonicalUrl
  | some d =>
    match entry.description with
    | none => Except.error typeErrorLength
    | some desc =>
      Except.ok {
        objectID := jsPlus entry.href hashLang, lang := langStr, title := entry.title,
        url := d.canonicalUrl, description := some desc,
        fulltext := limitText desc, authors := none, _tags := none }

/-- The newsletter mapper: same shape as the post mapper but without the
`authors` and `_tags` fields. -/
def mapNewsletter (removeMd : List Char → List Char) (item : Item) :
    Except String SearchRecord :=
  let limited := limitText (removeMd item.template.content)
  match item.data.page with
  | none => Except.error typeErrorUrl
  | some p =>
    Except.ok {
      objectID := jsPlus p.url hashLang, lang := langStr, title := item.data.title,
      url := item.data.canonicalUrl, description := item.data.description,
      fulltext := limited, authors := none, _tags := none }

/-- The exported module function: select posts, map the four kinds, and
return the concatenation `[...posts, ...authors, ...newsletters, ...tags]`.
The externally built collections (authors, newsletters, tags), the two feed
ordering hooks, the live predicate and `removeMarkdown` are parameters, as
they are external collaborators of algolia.js. -/
def algolia (live : Item → Bool) (removeMd : List Char → List Char)
    (authorsColl : List (List Char × FeedEntry))
    (authorsFeed : List FeedEntry → List FeedEntry)
    (newslettersColl : List Item)
    (tagsColl : List (List Char × FeedEntry))
    (tagsFeed : List FeedEntry → List FeedEntry)
    (coll : List Item) : Except String (List SearchRecord) :=
  match eleventyPosts live coll with
  | Except.error e => Except.error e
  | Except.ok eposts =>
    match mapE (mapPost removeMd (fun k => List.lookup k authorsColl)) eposts with
    | Except.error e => Except.error e
    | Except.ok posts =>
      match mapE mapFeedEntry (authorsFeed (authorsColl.map Prod.snd)) with
      | Except.error e => Except.error e
      | Except.ok authors =>
        match mapE (mapNewsletter removeMd) newslettersColl with
        | Except.error e => Except.error e
        | Except.ok newsletters =>
          match mapE mapFeedEntry (tagsFeed (tagsColl.map Prod.snd)) with
          | Except.error e => Except.error e
          | Except.ok tags => Except.ok (posts ++ authors ++ newsletters ++ tags)

/-- Whether a possibly-throwing predicate call returned `true`. -/
def exceptTrue (e : Except String Bool) : Bool :=
  match e with
  | Except.ok true => true
  | _ => false

/-- The crash-free reading of the title/URL filter: title truthy, `data.page`
present, and its `url` truthy. -/
def selectorTruthy (item : Item) : Bool :=
  jsTruthy item.data.title &&
    (match item.data.page with
     | none => false
     | some p => jsTruthy p.url)

theorem exceptTrue_ok (b : Bool) : exceptTrue (Except.ok b) = b := by
  cases b <;> rfl

theorem exceptTrue_titleUrlCheck (item : Item) :
    exceptTrue (titleUrlCheck item) = selectorTruthy item := by
  unfold titleUrlCheck selectorTruthy
  cases ht : jsTruthy item.data.title
  · simp [exceptTrue]
  · cases hp : item.data.page
    · simp [exceptTrue]
    · simp [exceptTrue_ok]

theorem filterE_ok_eq {α : Type} (p : α → Except String Bool) :
    ∀ (xs ys : List α), filterE p xs = Except.ok ys →
      ys = xs.filter (fun x => exceptTrue (p x)) := by
  intro xs
  induction xs with
  | nil =>
    intro ys h
    simp only [filterE] at h
    injection h with h
    simp [← h]
  | cons x xs ih =>
    intro ys h
    simp only [filterE] at h
    rcases hpx : p x with e | b
    · rw [hpx] at h
      exact Except.noConfusion h
    · rw [hpx] at h
      rcases hrec : filterE p xs with e2 | rest
      · rw [hrec] at h
        exact Except.noConfusion h
      · rw [hrec] at h
        injection h with h
        rw [List.filter_cons, hpx, exceptTrue_ok, ← ih rest hrec, ← h]

theorem filterE_ok_exists {α : Type} (p : α → Except String Bool) :
    ∀ (xs : List α), (∀ x ∈ xs, ∃ b, p x = Except.ok b) →
      ∃ ys, filterE p xs = Except.ok ys := by
  intro xs
  induction xs with
  | nil => exact fun _ => ⟨[], rfl⟩
  | cons x xs ih =>
    intro hall
    rcases hall x (List.mem_cons_self x xs) with ⟨b, hb⟩
    rcases ih (fun y hy => hall y (List.mem_cons_of_mem x hy)) with ⟨rest, hrest⟩
    refine ⟨if b then x :: rest else rest, ?_⟩
    simp only [filterE]
    rw [hb, hrest]

theorem authorTitleLookup_none (lookup : List Char → Option FeedEntry) (k : List Char)
    (h : lookup k = none) : authorTitleLookup lookup k = Except.error typeErrorTitle := by
  unfold authorTitleLookup
  rw [h]

theorem mapE_error {α β : Type} (f : α → Except String β) :
    ∀ (xs : List α) (x : α), x ∈ xs → (∃ e, f x = Except.error e) →
      ∃ e, mapE f xs = Except.error e := by
  intro xs
  induction xs with
  | nil => exact fun x hx _ => absurd hx (List.not_mem_nil x)
  | cons y ys ih =>
    intro x hx he
    rcases hfy : f y with e | v
    · exact ⟨e, by simp only [mapE]; rw [hfy]⟩
    · rcases List.mem_cons.mp hx with hxy | hxmem
      · subst hxy
        rcases he with ⟨e, hfe⟩
        rw [hfy] at hfe
        exact Except.noConfusion hfe
      · rcases ih x hxmem he with ⟨e, hrec⟩
        refine ⟨e, ?_⟩
        simp only [mapE]
        rw [hfy, hrec]

/-- C4: whenever the selector completes without throwing, its output is
exactly the order-preserving filter of the input collection by: tags is an
array containing "post", title truthy, `data.page` present with truthy url,
and the external live predicate; moreover the selector cannot throw on any
collection whose post-tagged, truthy-titled items all carry a `data.page`
(so items whose `tags` is not an array are excluded crash-free). -/
theorem eleventyPosts_spec (live : Item → Bool) (coll : List Item) :
    (∀ l, eleventyPosts live coll = Except.ok l →
      l = coll.filter (fun i => hasPostTag i && selectorTruthy i && live i)) ∧
    ((∀ i ∈ coll, hasPostTag i = true → jsTruthy i.data.title = true →
        i.data.page ≠ none) →
      ∃ l, eleventyPosts live coll = Except.ok l) := by
  constructor
  · intro l h
    unfold eleventyPosts at h
    rcases hfe : filterE titleUrlCheck (coll.filter hasPostTag) with e | titled
    · rw [hfe] at h
      exact Except.noConfusion h
    · rw [hfe] at h
      injection h with h
      have ht : titled = (coll.filter hasPostTag).filter (fun x => exceptTrue (titleUrlCheck x)) :=
        filterE_ok_eq titleUrlCheck (coll.filter hasPostTag) titled hfe
      rw [← h, ht, List.filter_filter, List.filter_filter]
      apply List.filter_congr
      intro a _
      rw [exceptTrue_titleUrlCheck]
      cases hasPostTag a <;> cases selectorTruthy a <;> cases live a <;> rfl
  · intro hsafe
    have hall : ∀ x ∈ coll.filter hasPostTag, ∃ b, titleUrlCheck x = Except.ok b := by
      intro x hx
      rcases List.mem_filter.mp hx with ⟨hxc, hpt⟩
      cases ht : jsTruthy x.data.title
      · refine ⟨false, ?_⟩
        unfold titleUrlCheck
        rw [ht]
        simp
      · rcases hp : x.data.page with _ | p
        · exact absurd hp (hsafe x hxc hpt ht)
        · refine ⟨jsTruthy p.url, ?_⟩
          unfold titleUrlCheck
          rw [ht, hp]
          simp
    rcases filterE_ok_exists titleUrlCheck (coll.filter hasPostTag) hall with ⟨ys, hys⟩
    refine ⟨ys.filter live, ?_⟩
    unfold eleventyPosts
    rw [hys]

def wPost : List Char := ['p', 'o', 's', 't']

def wGood : Item :=
  { data := { title := some ['T'], tags := some [wPost], authors := none,
              description := none, canonicalUrl := none,
              page := some { url := some ['/'] } },
    template := { content := [] } }

def wBadTags : Item :=
  { data := { title := some ['T'], tags := none, authors := none,
              description := none, canonicalUrl := none, page := none },
    template := { content := [] } }

def wNoTitle : Item :=
  { data := { title := none, tags := some [wPost], authors := none,
              description := none, canonicalUrl := none, page := none },
    template := { content := [] } }

def wNotLive : Item :=
  { data := { title := some ['X'], tags := some [wPost], authors := none,
              description := none, canonicalUrl := none,
              page := some { url := some ['/'] } },
    template := { content := [] } }

def wLive : Item → Bool := fun i => !(i.data.title == some ['X'])

def wColl : List Item := [wGood, wBadTags, wNoTitle, wNotLive]

/-- Closed instantiation of `eleventyPosts_spec` on a four-item collection:
one eligible item, one with non-array tags, one untitled, one not live. -/
theorem eleventyPosts_spec_witness :
    [wGood] = wColl.filter (fun i => hasPostTag i && selectorTruthy i && wLive i) ∧
    ∃ l, eleventyPosts wLive wColl = Except.ok l :=
  ⟨(eleventyPosts_spec wLive wColl).1 [wGood] rfl,
    (eleventyPosts_spec wLive wColl).2 (by decide)⟩

def wPageless : Item :=
  { data := { title := some ['T'], tags := some [wPost], authors := none,
              description := none, canonicalUrl := none, page := none },
    template := { content := [] } }

/-- C10: the title/URL filter dereferences `item.data.page.url` unguarded:
a post-tagged, titled item with no `data.page` makes the selection throw a
TypeError, while the non-array-tags malformed shape is excluded crash-free. -/
theorem eleventyPosts_page_crash :
    eleventyPosts (fun _ => true) [wPageless] = Except.error typeErrorUrl ∧
    eleventyPosts (fun _ => true) [wBadTags] = Except.ok [] :=
  ⟨rfl, rfl⟩

/-- C5: a selected post whose `data.authors` holds a key with no entry in the
authors collection makes the whole transform fail with a propagated lookup
error — the error reaches the caller and is never swallowed. -/
theorem missing_author_aborts (live : Item → Bool) (removeMd : List Char → List Char)
    (authorsColl : List (List Char × FeedEntry))
    (authorsFeed : List FeedEntry → List FeedEntry)
    (newslettersColl : List Item)
    (tagsColl : List (List Char × FeedEntry))
    (tagsFeed : List FeedEntry → List FeedEntry)
    (coll : List Item) (eposts : List Item) (item : Item)
    (keys : List (List Char)) (k : List Char)
    (h1 : eleventyPosts live coll = Except.ok eposts)
    (h2 : item ∈ eposts)
    (h3 : item.data.authors = some keys)
    (h4 : k ∈ keys)
    (h5 : List.lookup k authorsColl = none) :
    ∃ e, algolia live removeMd authorsColl authorsFeed newslettersColl tagsColl tagsFeed coll
      = Except.error e := by
  have hsingle : ∃ e,
      authorTitleLookup (fun k2 => List.lookup k2 authorsColl) k = Except.error e :=
    ⟨typeErrorTitle, authorTitleLookup_none (fun k2 => List.lookup k2 authorsColl) k h5⟩
  have hauthors : ∃ e,
      mapE (authorTitleLookup (fun k2 => List.lookup k2 authorsColl))
        (item.data.authors.getD []) = Except.error e := by
    rw [h3]
    exact mapE_error _ keys k h4 hsingle
  have hpost : ∃ e,
      mapPost removeMd (fun k2 => List.lookup k2 authorsColl) item = Except.error e := by
    rcases hauthors with ⟨e, he⟩
    refine ⟨e, ?_⟩
    simp only [mapPost]
    rw [he]
  rcases mapE_error _ eposts item h2 hpost with ⟨e, he⟩
  refine ⟨e, ?_⟩
  simp only [algolia, h1]
  rw [he]

def wAuthoredPost : Item :=
  { data := { title := some ['T'], tags := some [wPost], authors := some [['a']],
              description := none, canonicalUrl := none,
              page := some { url := some ['/'] } },
    template := { content := [] } }

/-- Closed instantiation of `missing_author_aborts`: a single selected post
referencing author key "a" against an empty authors collection. -/
theorem missing_author_aborts_witness :
    ∃ e, algolia (fun _ => true) id [] id [] [] id [wAuthoredPost] = Except.error e :=
  missing_author_aborts (fun _ => true) id [] id [] [] id [wAuthoredPost]
    [wAuthoredPost] wAuthoredPost [['a']] ['a'] rfl (List.mem_cons_self _ _) rfl
    (List.mem_cons_self _ _) rfl

def wNoDesc : FeedEntry :=
  { title := some ['A'], description := none, href := some ['/', 'u'],
    data := some { canonicalUrl := some ['/', 'u'] } }

/-- C3 counterexample: an author/tag entry with a present data bag but a
missing description makes the mapper throw (`limitText` reads `.length` of
`undefined`) instead of producing a record with an empty field — mapping is
not throw-free for every missing field. -/
theorem feed_missing_description_throws :
    mapFeedEntry wNoDesc = Except.error typeErrorLength := rfl

/-- C3 amended: for authors and tags, when the entry's `data` bag and
`description` are present the mapper cannot throw, and any other missing
field (title, href, canonicalUrl) passes through as undefined/empty in the
output record; a missing `description` or a missing `data` bag throws. -/
theorem feed_mapper_total_when_description_present (entry : FeedEntry)
    (d : List Char) (dd : EntryData)
    (hdesc : entry.description = some d) (hdata : entry.data = some dd) :
    mapFeedEntry entry = Except.ok
      { objectID := jsPlus entry.href hashLang, lang := langStr, title := entry.title,
        url := dd.canonicalUrl, description := some d, fulltext := limitText d,
        authors := none, _tags := none } := by
  unfold mapFeedEntry
  rw [hdata, hdesc]

def wMinimal : FeedEntry :=
  { title := none, description := some [], href := none,
    data := some { canonicalUrl := none } }

/-- Closed instantiation of `feed_mapper_total_when_description_present` on
an entry missing its title, href and canonicalUrl. -/
theorem feed_mapper_total_witness :
    mapFeedEntry wMinimal = Except.ok
      { objectID := jsPlus none hashLang, lang := langStr, title := none,
        url := none, description := some [], fulltext := limitText [],
        authors := none, _tags := none } :=
  feed_mapper_total_when_description_present wMinimal [] { canonicalUrl := none } rfl rfl

/-- C8: a successfully mapped post record's objectID is
`data.page.url + '#' + 'en'`, and posts with distinct page urls map to
records with distinct objectIDs. -/
theorem post_objectID_spec (removeMd : List Char → List Char)
    (lookup : List Char → Option FeedEntry) (i1 i2 : Item) (p1 p2 : Page)
    (u1 u2 : List Char) (r1 r2 : SearchRecord)
    (hp1 : i1.data.page = some p1) (hu1 : p1.url = some u1)
    (hp2 : i2.data.page = some p2) (hu2 : p2.url = some u2)
    (h1 : mapPost removeMd lookup i1 = Except.ok r1)
    (h2 : mapPost removeMd lookup i2 = Except.ok r2) :
    r1.objectID = u1 ++ hashLang ∧ (u1 ≠ u2 → r1.objectID ≠ r2.objectID) := by
  have hid : ∀ (i : Item) (p : Page) (u : List Char) (r : SearchRecord),
      i.data.page = some p → p.url = some u → mapPost removeMd lookup i = Except.ok r →
      r.objectID = u ++ hashLang := by
    intro i p u r hp hu h
    simp only [mapPost] at h
    rcases hm : mapE (authorTitleLookup lookup) (i.data.authors.getD []) with e | as
    · rw [hm] at h
      exact Except.noConfusion h
    · rw [hm, hp] at h
      injection h with h
      rw [← h]
      simp [jsPlus, hu]
  have e1 := hid i1 p1 u1 r1 hp1 hu1 h1
  have e2 := hid i2 p2 u2 r2 hp2 hu2 h2
  refine ⟨e1, fun hne heq => hne ?_⟩
  rw [e1, e2] at heq
  exact List.append_cancel_right heq

def wPostA : Item :=
  { data := { title := some ['T'], tags := some [wPost], authors := none,
              description := none, canonicalUrl := none,
              page := some { url := some ['/', 'a'] } },
    template := { content := [] } }

def wPostB : Item :=
  { data := { title := some ['T'], tags := some [wPost], authors := none,
              description := none, canonicalUrl := none,
              page := some { url := some ['/', 'b'] } },
    template := { content := [] } }

def wRecA : SearchRecord :=
  { objectID := ['/', 'a', '#', 'e', 'n'], lang := langStr, title := some ['T'],
    url := none, description := none, fulltext := [], authors := some [],
    _tags := some [wPost] }

def wRecB : SearchRecord :=
  { objectID := ['/', 'b', '#', 'e', 'n'], lang := langStr, title := some ['T'],
    url := none, description := none, fulltext := [], authors := some [],
    _tags := some [wPost] }

/-- Closed instantiation of `post_objectID_spec` on two posts with urls
"/a" and "/b". -/
theorem post_objectID_spec_witness :
    wRecA.objectID = ['/', 'a'] ++ hashLang ∧ wRecA.objectID ≠ wRecB.objectID :=
  ⟨(post_objectID_spec id (fun _ => none) wPostA wPostB { url := some ['/', 'a'] }
      { url := some ['/', 'b'] } ['/', 'a'] ['/', 'b'] wRecA wRecB
      rfl rfl rfl rfl rfl rfl).1,
    (post_objectID_spec id (fun _ => none) wPostA wPostB { url := some ['/', 'a'] }
      { url := some ['/', 'b'] } ['/', 'a'] ['/', 'b'] wRecA wRecB
      rfl rfl rfl rfl rfl rfl).2 (by decide)⟩

/-- C9: when each of the four mapped lists is produced without a thrown
error, the transform returns exactly their concatenation in the fixed order
posts, authors, newsletters, tags — no deduplication, no re-sorting, and no
size cap across the whole list. -/
theorem algolia_concat (live : Item → Bool) (removeMd : List Char → List Char)
    (authorsColl : List (List Char × FeedEntry))
    (authorsFeed : List FeedEntry → List FeedEntry)
    (newslettersColl : List Item)
    (tagsColl : List (List Char × FeedEntry))
    (tagsFeed : List FeedEntry → List FeedEntry)
    (coll eposts : List Item) (ps as ns ts : List SearchRecord)
    (h1 : eleventyPosts live coll = Except.ok eposts)
    (h2 : mapE (mapPost removeMd (fun k => List.lookup k authorsColl)) eposts = Except.ok ps)
    (h3 : mapE mapFeedEntry (authorsFeed (authorsColl.map Prod.snd)) = Except.ok as)
    (h4 : mapE (mapNewsletter removeMd) newslettersColl = Except.ok ns)
    (h5 : mapE mapFeedEntry (tagsFeed (tagsColl.map Prod.snd)) = Except.ok ts) :
    algolia live removeMd authorsColl authorsFeed newslettersColl tagsColl tagsFeed coll
      = Except.ok (ps ++ as ++ ns ++ ts) := by
  simp only [algolia, h1, h2, h3, h4, h5]

def wAuthor : FeedEntry :=
  { title := some ['A'], description := some ['d'], href := some ['/', 'u'],
    data := some { canonicalUrl := some ['/', 'u'] } }

def wAuthorRec : SearchRecord :=
  { objectID := ['/', 'u', '#', 'e', 'n'], lang := langStr, title := some ['A'],
    url := some ['/', 'u'], description := some ['d'], fulltext := ['d'],
    authors := none, _tags := none }

/-- Closed instantiation of `algolia_concat`: one post and one author
collection entry, empty newsletters and tags. -/
theorem algolia_concat_witness :
    algolia (fun _ => true) id [(['a'], wAuthor)] id [] [] id [wPostA]
      = Except.ok ([wRecA] ++ [wAuthorRec] ++ [] ++ []) :=
  algolia_concat (fun _ => true) id [(['a'], wAuthor)] id [] [] id [wPostA]
    [wPostA] [wRecA] [wAuthorRec] [] [] rfl rfl rfl rfl rfl

end Algolia
